import Mathlib

/-!
Verification of the symptom-to-disease matching engine of `app.py`.

The engine is four pure Python functions, embedded here shallowly:

* `preprocess_text` (app.py lines 69-80): lowercase, replace every character
  outside `[a-zA-Z\s]` by a space, split on whitespace, drop stop words and
  tokens of length at most 2, join survivors with single spaces.
* `categorize_disease` (app.py lines 83-104): first category, in declared
  order, one of whose keywords is a substring of the lowercased name.
* `calculate_similarity` (app.py lines 107-131): term-frequency cosine of the
  two token lists, with 0.0 guards for an empty side.
* `find_similar_diseases` (app.py lines 146-167): score every catalog row,
  keep scores above 0.1, sort descending by score (Python's stable sort with
  `reverse=True`), truncate to `top_n` (default 10).

Python floats are modelled by exact real arithmetic (`math.sqrt` becomes
`Real.sqrt`, float literals their rational values); strings are modelled at
the ASCII level that the data and the regular expression `[^a-zA-Z\s]`
operate on. Python's `list.sort` is a stable sort; a stable sort with
respect to a total preorder comparator has a unique output, so it is
modelled by `List.insertionSort` with the non-strict descending comparator,
which is stable.
-/

/-- Test for the character class of the regex `\s`
(space, tab, newline, carriage return, vertical tab, form feed),
which is also the set `str.split()` splits on. -/
def isSpaceChar (c : Char) : Bool :=
  c.toNat = 32 || c.toNat = 9 || c.toNat = 10 || c.toNat = 13 ||
    c.toNat = 11 || c.toNat = 12

/-- Character class of the regex `[a-zA-Z]`. -/
def isAlphaChar (c : Char) : Bool :=
  (97 ≤ c.toNat && c.toNat ≤ 122) || (65 ≤ c.toNat && c.toNat ≤ 90)

/-- `str.lower()` on one character (ASCII): `A`..`Z` move to `a`..`z`. -/
def lowerChar (c : Char) : Char :=
  if 65 ≤ c.toNat ∧ c.toNat ≤ 90 then Char.ofNat (c.toNat + 32) else c

/-- One character of `re.sub(r'[^a-zA-Z\s]', ' ', text)`: characters outside
`[a-zA-Z\s]` become a space, the rest stay. -/
def cleanChar (c : Char) : Char :=
  if isAlphaChar c || isSpaceChar c then c else ' '

/-- `str.split()`: split on runs of whitespace, no empty tokens.
`acc` holds the characters of the token being read, in reverse. -/
def splitWsAux : List Char → List Char → List (List Char)
  | [], acc => if acc = [] then [] else [acc.reverse]
  | c :: cs, acc =>
    if isSpaceChar c then
      if acc = [] then splitWsAux cs [] else acc.reverse :: splitWsAux cs []
    else splitWsAux cs (c :: acc)

/-- `text.split()` over the characters of `text`. -/
def splitWs (l : List Char) : List (List Char) :=
  splitWsAux l []

/-- The stop-word set of `preprocess_text` (app.py lines 76-78). -/
def stop_words : List (List Char) :=
  ["the".data, "and".data, "or".data, "but".data, "is".data, "in".data,
   "it".data, "to".data, "of".data, "for".data, "with".data, "on".data,
   "at".data, "by".data, "an".data, "a".data, "this".data, "that".data,
   "are".data, "was".data, "has".data, "have".data, "had".data, "be".data,
   "been".data, "being".data]

/-- The token filter of app.py line 79:
`word not in stop_words and len(word) > 2`. -/
def keepWord (w : List Char) : Bool :=
  !(stop_words.contains w) && decide (2 < w.length)

/-- `' '.join(words)` at the character level. -/
def joinSpaces : List (List Char) → List Char
  | [] => []
  | [w] => w
  | w :: ws => w ++ ' ' :: joinSpaces ws

/-- Lowercasing followed by the `[^a-zA-Z\s]` → space substitution
(app.py lines 72-73). -/
def cleanedList (l : List Char) : List Char :=
  (l.map lowerChar).map cleanChar

/-- `preprocess_text` on a character list: clean, split, filter, join. -/
def preprocessList (l : List Char) : List Char :=
  joinSpaces ((splitWs (cleanedList l)).filter keepWord)

/-- `preprocess_text` (app.py lines 69-80). `none` stands for a missing
value (`pd.isna(text)` true), which maps to the empty string. -/
def preprocess_text : Option String → String
  | none => ""
  | some t => String.mk (preprocessList t.data)

/-- Substring containment, Python's `needle in hay` on strings: some
contiguous run of `hay` equals `needle` (the empty needle is contained
everywhere). -/
def strHasSub (hay needle : List Char) : Bool :=
  match hay with
  | [] => needle.isEmpty
  | _ :: t => needle.isPrefixOf hay || strHasSub t needle

/-- The category table of `categorize_disease` (app.py lines 85-99), in its
declared (insertion) order, which Python's dict iteration follows. -/
def categories : List (String × List String) :=
  [("Cancer", ["cancer", "carcinoma", "tumor", "lymphoma", "leukemia", "melanoma"]),
   ("Infection", ["infection", "itis", "abscess", "fever", "pox", "flu", "sepsis"]),
   ("Syndrome", ["syndrome", "disorder"]),
   ("Deficiency", ["deficiency", "anemia", "avitaminosis"]),
   ("Poisoning", ["poisoning", "overdose", "intoxication", "toxicity"]),
   ("Injury", ["fracture", "injury", "dislocation", "sprain", "trauma", "wound"]),
   ("Eye Condition", ["glaucoma", "cataract", "vision", "eye", "retina", "cornea"]),
   ("Cardiovascular", ["heart", "cardio", "hypertension", "blood pressure", "artery", "vein"]),
   ("Endocrine", ["diabetes", "thyroid", "hormone", "metabolic", "gland"]),
   ("Neurological", ["neuro", "brain", "nerve", "neural", "cephal", "psych"]),
   ("Respiratory", ["lung", "pulmonary", "breath", "respiratory", "asthma"]),
   ("Gastrointestinal", ["gastro", "stomach", "intestinal", "colon", "liver", "pancreas"]),
   ("Pain Condition", ["arthritis", "pain", "ache", "neuralgia", "migraine"])]

/-- `any(keyword in disease_name for keyword in keywords)` for one category
row, against the lowercased disease name. -/
def categoryHit (dn : List Char) (row : String × List String) : Bool :=
  row.2.any (fun kw => strHasSub dn kw.data)

/-- `categorize_disease` (app.py lines 83-104): lowercase the name, return
the first declared category with a keyword hit, else the label Other. -/
def categorize_disease (disease_name : String) : String :=
  let dn := disease_name.data.map lowerChar
  match categories.find? (categoryHit dn) with
  | some row => row.1
  | none => "Other"

/-- The token list of one side of `calculate_similarity`
(`text1.split()`, app.py lines 108-109). -/
def tokensOf (t : String) : List (List Char) :=
  splitWs t.data

/-- `all_words = set(words1 + words2)` (app.py line 117), as the
duplicate-free list of tokens of either side. -/
def all_words (t1 t2 : String) : List (List Char) :=
  (tokensOf t1 ++ tokensOf t2).dedup

/-- `dot_product` of app.py lines 119-124: sum over the distinct words of
`count1[word] * count2[word]` (a `Counter` counts occurrences). -/
def dot_product (t1 t2 : String) : ℕ :=
  ((all_words t1 t2).map
    (fun w => (tokensOf t1).count w * (tokensOf t2).count w)).sum

/-- `mag1` of app.py lines 120-125: sum of squared counts of side one. -/
def magSq1 (t1 t2 : String) : ℕ :=
  ((all_words t1 t2).map (fun w => (tokensOf t1).count w ^ 2)).sum

/-- `mag2` of app.py lines 121-126: sum of squared counts of side two. -/
def magSq2 (t1 t2 : String) : ℕ :=
  ((all_words t1 t2).map (fun w => (tokensOf t2).count w ^ 2)).sum

/-- `calculate_similarity` (app.py lines 107-131): 0.0 when either token
list is empty or either magnitude is zero (the division-by-zero guards),
else the cosine `dot / (sqrt(mag1) * sqrt(mag2))`. -/
noncomputable def calculate_similarity (text1 text2 : String) : ℝ :=
  if tokensOf text1 = [] ∨ tokensOf text2 = [] then 0
  else if magSq1 text1 text2 = 0 ∨ magSq2 text1 text2 = 0 then 0
  else (dot_product text1 text2 : ℝ) /
    (Real.sqrt (magSq1 text1 text2) * Real.sqrt (magSq2 text1 text2))

/-- One catalog row, with the columns the engine reads (`Code` is carried
but never read by the matcher). `Symptoms` is `Option`al because a missing
cell (`NaN`) reaches `preprocess_text`, which maps it to the empty
string. -/
structure Row where
  Code : String
  Name : String
  Symptoms : Option String
  Treatments : String

/-- One entry of the result list built in app.py lines 158-164. -/
structure MatchResult where
  disease : String
  symptoms : Option String
  treatments : String
  similarity : ℝ
  category : String

/-- The loop body of app.py lines 153-164 for one row: preprocess the row's
symptom text, score it against the cleaned query, and keep it only when the
similarity is above 0.1. -/
noncomputable def score_row (cleaned_symptoms : String) (row : Row) :
    Option MatchResult :=
  let disease_symptoms := preprocess_text row.Symptoms
  let similarity := calculate_similarity cleaned_symptoms disease_symptoms
  if 0.1 < similarity then
    some { disease := row.Name, symptoms := row.Symptoms,
           treatments := row.Treatments, similarity := similarity,
           category := categorize_disease row.Name }
  else none

/-- The `results` list of app.py lines 152-164, in catalog order. -/
noncomputable def scored_results (symptoms : String) (df : List Row) :
    List MatchResult :=
  df.filterMap (score_row (preprocess_text (some symptoms)))

/-- The comparator of `results.sort(key=lambda x: x['similarity'],
reverse=True)`: `a` may stay before `b` exactly when `a`'s similarity is at
least `b`'s. -/
def simGE (a b : MatchResult) : Prop :=
  b.similarity ≤ a.similarity

noncomputable instance : DecidableRel simGE :=
  fun a b => Real.decidableLE b.similarity a.similarity

/-- The sorted `results` of app.py line 166. Python's sort is stable and
`reverse=True` reverses the comparison, not the list, so ties keep their
catalog order; `insertionSort` with the non-strict descending comparator is
that stable sort. -/
noncomputable def sorted_results (symptoms : String) (df : List Row) :
    List MatchResult :=
  (scored_results symptoms df).insertionSort simGE

/-- `find_similar_diseases` (app.py lines 146-167): empty result for a query
that normalizes to nothing, else the sorted scored rows truncated to
`top_n`. -/
noncomputable def find_similar_diseases (symptoms : String) (df : List Row)
    (top_n : ℕ) : List MatchResult :=
  let cleaned_symptoms := preprocess_text (some symptoms)
  if cleaned_symptoms = "" then []
  else (sorted_results symptoms df).take top_n

/-- The Python signature's default `top_n=10` (app.py line 146). -/
noncomputable def find_similar_diseases_default (symptoms : String)
    (df : List Row) : List MatchResult :=
  find_similar_diseases symptoms df 10

/-- Valid code points in the lowercase window: `Char.ofNat` inverts
`Char.toNat` on `97..122`. -/
theorem charOfNat_window : ∀ n, n < 123 → 97 ≤ n → (Char.ofNat n).toNat = n := by
  decide

/-- A character already in `a`..`z` survives lowercasing and cleaning. -/
theorem cleanChar_lowerChar_of_lower {c : Char} (h1 : 97 ≤ c.toNat)
    (h2 : c.toNat ≤ 122) : cleanChar (lowerChar c) = c := by
  have hl : lowerChar c = c := by
    unfold lowerChar
    rw [if_neg]
    omega
  have ha : isAlphaChar c = true := by
    unfold isAlphaChar
    simp only [Bool.or_eq_true, Bool.and_eq_true, decide_eq_true_eq]
    exact Or.inl ⟨h1, h2⟩
  rw [hl]
  unfold cleanChar
  rw [if_pos]
  simp [ha]

/-- Every character produced by lowercasing-and-cleaning is whitespace or a
lowercase letter. -/
theorem cleanChar_lowerChar_cases (c : Char) :
    isSpaceChar (cleanChar (lowerChar c)) = true ∨
      (97 ≤ (cleanChar (lowerChar c)).toNat ∧
        (cleanChar (lowerChar c)).toNat ≤ 122) := by
  by_cases h : 65 ≤ c.toNat ∧ c.toNat ≤ 90
  · have hl : lowerChar c = Char.ofNat (c.toNat + 32) := by
      unfold lowerChar
      rw [if_pos h]
    have hv : (Char.ofNat (c.toNat + 32)).toNat = c.toNat + 32 :=
      charOfNat_window _ (by omega) (by omega)
    have ha : isAlphaChar (Char.ofNat (c.toNat + 32)) = true := by
      unfold isAlphaChar
      simp only [Bool.or_eq_true, Bool.and_eq_true, decide_eq_true_eq, hv]
      exact Or.inl ⟨by omega, by omega⟩
    right
    rw [hl]
    unfold cleanChar
    rw [if_pos (by simp [ha]), hv]
    omega
  · have hl : lowerChar c = c := by
      unfold lowerChar
      rw [if_neg h]
    rw [hl]
    by_cases hk : (isAlphaChar c || isSpaceChar c) = true
    · have hc : cleanChar c = c := by
        unfold cleanChar
        rw [if_pos hk]
      rw [hc]
      rcases Bool.or_eq_true _ _ |>.mp hk with ha | hs
      · unfold isAlphaChar at ha
        simp only [Bool.or_eq_true, Bool.and_eq_true, decide_eq_true_eq] at ha
        rcases ha with hgood | hbad
        · exact Or.inr hgood
        · exact absurd hbad h
      · exact Or.inl hs
    · have hc : cleanChar c = ' ' := by
        unfold cleanChar
        rw [if_neg hk]
      rw [hc]
      left
      decide

/-- Unfolding `splitWsAux` on the empty list. -/
theorem splitWsAux_nil (acc : List Char) :
    splitWsAux [] acc = if acc = [] then [] else [acc.reverse] := rfl

/-- Unfolding `splitWsAux` on a non-whitespace head. -/
theorem splitWsAux_cons_nonspace {c : Char} (cs acc : List Char)
    (h : isSpaceChar c = false) :
    splitWsAux (c :: cs) acc = splitWsAux cs (c :: acc) := by
  simp only [splitWsAux, h, Bool.false_eq_true, if_false]

/-- Unfolding `splitWsAux` on a whitespace head. -/
theorem splitWsAux_cons_space {c : Char} (cs acc : List Char)
    (h : isSpaceChar c = true) :
    splitWsAux (c :: cs) acc =
      if acc = [] then splitWsAux cs [] else acc.reverse :: splitWsAux cs [] := by
  simp only [splitWsAux, h, if_true]

/-- Every token produced by `splitWsAux` is non-empty, whitespace-free, and
draws its characters from the input or the accumulator. -/
theorem splitWsAux_shape :
    ∀ (l acc : List Char), (∀ c ∈ acc, isSpaceChar c = false) →
      ∀ w ∈ splitWsAux l acc, w ≠ [] ∧
        ∀ c ∈ w, isSpaceChar c = false ∧ (c ∈ l ∨ c ∈ acc) := by
  intro l
  induction l with
  | nil =>
    intro acc hacc w hw
    unfold splitWsAux at hw
    by_cases h : acc = []
    · rw [if_pos h] at hw
      exact absurd hw (List.not_mem_nil w)
    · rw [if_neg h] at hw
      rcases List.mem_singleton.mp hw with rfl
      refine ⟨by simpa using h, ?_⟩
      intro c hc
      rw [List.mem_reverse] at hc
      exact ⟨hacc c hc, Or.inr hc⟩
  | cons a as ih =>
    intro acc hacc w hw
    unfold splitWsAux at hw
    by_cases hs : isSpaceChar a = true
    · rw [if_pos hs] at hw
      by_cases h : acc = []
      · rw [if_pos h] at hw
        obtain ⟨hne, hch⟩ := ih [] (by simp) w hw
        refine ⟨hne, fun c hc => ?_⟩
        obtain ⟨h1, h2⟩ := hch c hc
        rcases h2 with h2 | h2
        · exact ⟨h1, Or.inl (List.mem_cons_of_mem a h2)⟩
        · exact absurd h2 (List.not_mem_nil c)
      · rw [if_neg h] at hw
        rcases List.mem_cons.mp hw with rfl | hw'
        · refine ⟨by simpa using h, ?_⟩
          intro c hc
          rw [List.mem_reverse] at hc
          exact ⟨hacc c hc, Or.inr hc⟩
        · obtain ⟨hne, hch⟩ := ih [] (by simp) w hw'
          refine ⟨hne, fun c hc => ?_⟩
          obtain ⟨h1, h2⟩ := hch c hc
          rcases h2 with h2 | h2
          · exact ⟨h1, Or.inl (List.mem_cons_of_mem a h2)⟩
          · exact absurd h2 (List.not_mem_nil c)
    · rw [if_neg hs] at hw
      have hacc' : ∀ c ∈ a :: acc, isSpaceChar c = false := by
        intro c hc
        rcases List.mem_cons.mp hc with rfl | hc'
        · exact Bool.not_eq_true _ ▸ eq_false_of_ne_true hs
        · exact hacc c hc'
      obtain ⟨hne, hch⟩ := ih (a :: acc) hacc' w hw
      refine ⟨hne, fun c hc => ?_⟩
      obtain ⟨h1, h2⟩ := hch c hc
      rcases h2 with h2 | h2
      · exact ⟨h1, Or.inl (List.mem_cons_of_mem a h2)⟩
      · rcases List.mem_cons.mp h2 with h2a | h2'
        · refine ⟨h1, Or.inl ?_⟩
          rw [h2a]
          exact List.mem_cons_self a as
        · exact ⟨h1, Or.inr h2'⟩

/-- Reading a whitespace-free block extends the accumulator. -/
theorem splitWsAux_append :
    ∀ (t l acc : List Char), (∀ c ∈ t, isSpaceChar c = false) →
      splitWsAux (t ++ l) acc = splitWsAux l (t.reverse ++ acc) := by
  intro t
  induction t with
  | nil => intro l acc _; simp
  | cons a as ih =>
    intro l acc ht
    have ha : isSpaceChar a = false := ht a (List.mem_cons_self a as)
    show splitWsAux (a :: (as ++ l)) acc = _
    rw [splitWsAux_cons_nonspace _ _ ha,
      ih l (a :: acc) (fun c hc => ht c (List.mem_cons_of_mem a hc))]
    simp

/-- Splitting after joining with single spaces recovers the very token list,
as long as every token is non-empty and whitespace-free. -/
theorem splitWs_joinSpaces :
    ∀ ws : List (List Char),
      (∀ w ∈ ws, w ≠ [] ∧ ∀ c ∈ w, isSpaceChar c = false) →
      splitWs (joinSpaces ws) = ws := by
  intro ws
  induction ws with
  | nil => intro _; rfl
  | cons w ws ih =>
    intro h
    obtain ⟨hw, hwch⟩ := h w (List.mem_cons_self w ws)
    cases ws with
    | nil =>
      show splitWs (joinSpaces [w]) = [w]
      have h1 : splitWsAux (w ++ []) [] = splitWsAux [] (w.reverse ++ []) :=
        splitWsAux_append w [] [] hwch
      rw [List.append_nil, List.append_nil] at h1
      show splitWsAux w [] = [w]
      rw [h1, splitWsAux_nil, if_neg (by simpa using hw),
        List.reverse_reverse]
    | cons w' ws' =>
      show splitWsAux (w ++ ' ' :: joinSpaces (w' :: ws')) [] = w :: w' :: ws'
      rw [splitWsAux_append w _ [] hwch, List.append_nil,
        splitWsAux_cons_space _ _ (by decide),
        if_neg (by simpa using hw), List.reverse_reverse]
      exact congrArg (w :: ·)
        (ih (fun x hx => h x (List.mem_cons_of_mem w hx)))

/-- A character of a space-join is a character of some token or a space. -/
theorem mem_joinSpaces :
    ∀ (ws : List (List Char)) (c : Char), c ∈ joinSpaces ws →
      (∃ w ∈ ws, c ∈ w) ∨ c = ' ' := by
  intro ws
  induction ws with
  | nil => intro c hc; exact absurd hc (List.not_mem_nil c)
  | cons w ws ih =>
    intro c hc
    cases ws with
    | nil => exact Or.inl ⟨w, List.mem_cons_self w [], hc⟩
    | cons w' ws' =>
      rcases List.mem_append.mp hc with h | h
      · exact Or.inl ⟨w, List.mem_cons_self w _, h⟩
      · rcases List.mem_cons.mp h with rfl | h'
        · exact Or.inr rfl
        · rcases ih c h' with ⟨x, hx, hcx⟩ | h''
          · exact Or.inl ⟨x, List.mem_cons_of_mem w hx, hcx⟩
          · exact Or.inr h''

/-- The output of the normalizer is a fixed point of lowercasing and
cleaning: all its characters are lowercase letters or the single space. -/
theorem cleanedList_preprocessList (l : List Char) :
    cleanedList (preprocessList l) = preprocessList l := by
  have key : ∀ c ∈ preprocessList l, cleanChar (lowerChar c) = c := by
    intro c hc
    unfold preprocessList at hc
    rcases mem_joinSpaces _ c hc with ⟨w, hw, hcw⟩ | rfl
    · have hw' : w ∈ splitWs (cleanedList l) := List.mem_of_mem_filter hw
      obtain ⟨-, hch⟩ := splitWsAux_shape (cleanedList l) [] (by simp) w hw'
      obtain ⟨hns, hmem⟩ := hch c hcw
      rcases hmem with hmem | hmem
      · unfold cleanedList at hmem
        rw [List.map_map] at hmem
        obtain ⟨c0, -, rfl⟩ := List.mem_map.mp hmem
        rcases cleanChar_lowerChar_cases c0 with hsp | ⟨h1, h2⟩
        · rw [Function.comp_apply] at hns
          rw [hsp] at hns
          cases hns
        · simp only [Function.comp_apply]
          exact cleanChar_lowerChar_of_lower h1 h2
      · exact absurd hmem (List.not_mem_nil c)
    · decide
  show ((preprocessList l).map lowerChar).map cleanChar = preprocessList l
  rw [List.map_map]
  have h2 : (preprocessList l).map (cleanChar ∘ lowerChar) =
      (preprocessList l).map id :=
    List.map_congr_left (fun a ha => key a ha)
  rw [h2, List.map_id]

/-- Splitting the normalizer's output recovers exactly the filtered token
list it was built from. -/
theorem splitWs_preprocessList (l : List Char) :
    splitWs (preprocessList l) = (splitWs (cleanedList l)).filter keepWord := by
  unfold preprocessList
  apply splitWs_joinSpaces
  intro w hw
  have hw' : w ∈ splitWs (cleanedList l) := List.mem_of_mem_filter hw
  obtain ⟨hne, hch⟩ := splitWsAux_shape (cleanedList l) [] (by simp) w hw'
  exact ⟨hne, fun c hc => (hch c hc).1⟩

/-- The character-level normalizer is idempotent. -/
theorem preprocessList_idem (l : List Char) :
    preprocessList (preprocessList l) = preprocessList l := by
  conv_lhs => rw [preprocessList]
  rw [cleanedList_preprocessList, splitWs_preprocessList,
    List.filter_eq_self.mpr (fun a ha => List.of_mem_filter ha)]
  rfl

/-- Claim C5: the text normalizer is idempotent — for every string `x`,
`preprocess_text(preprocess_text(x)) == preprocess_text(x)`. -/
theorem C5_preprocess_text_idempotent (x : String) :
    preprocess_text (some (preprocess_text (some x))) =
      preprocess_text (some x) := by
  show String.mk (preprocessList (String.mk (preprocessList x.data)).data) =
    String.mk (preprocessList x.data)
  exact congrArg String.mk (preprocessList_idem x.data)

/-- Claim C8: normalizer boundary outputs — a missing value and the empty
string map to the empty string without error, and
`preprocess_text("The Fever!!") == "fever"` (punctuation becomes separators,
the stop word the is dropped, fever survives the length filter). -/
theorem C8_preprocess_text_boundaries :
    preprocess_text none = "" ∧ preprocess_text (some "") = "" ∧
      preprocess_text (some "The Fever!!") = "fever" :=
  ⟨rfl, by decide, by decide⟩

/-- `List.find?` returns the first hit: either nothing matches, or some
position matches, every earlier position does not, and that element is
returned. -/
theorem find?_first {α : Type} (f : α → Bool) :
    ∀ l : List α,
      ((∀ x ∈ l, f x = false) ∧ l.find? f = none) ∨
      (∃ i : Fin l.length, f (l.get i) = true ∧
        (∀ j : Fin l.length, (j : ℕ) < (i : ℕ) → f (l.get j) = false) ∧
        l.find? f = some (l.get i)) := by
  intro l
  induction l with
  | nil => exact Or.inl ⟨by simp, rfl⟩
  | cons a l ih =>
    by_cases ha : f a = true
    · refine Or.inr ⟨⟨0, by simp⟩, ha, ?_, ?_⟩
      · intro j hj
        exact absurd hj (Nat.not_lt_zero _)
      · rw [List.find?_cons_of_pos _ ha]
        rfl
    · have ha' : f a = false := Bool.not_eq_true _ |>.mp ha
      rcases ih with ⟨hall, hnone⟩ | ⟨i, hi, hlt, heq⟩
      · refine Or.inl ⟨?_, ?_⟩
        · intro x hx
          rcases List.mem_cons.mp hx with hxa | hxl
          · rw [hxa]; exact ha'
          · exact hall x hxl
        · rw [List.find?_cons_of_neg _ (by simp [ha']), hnone]
      · refine Or.inr ⟨⟨(i : ℕ) + 1, by simp⟩, hi, ?_, ?_⟩
        · intro j hj
          match j, hj with
          | ⟨0, h0⟩, _ => exact ha'
          | ⟨k + 1, hk⟩, hjlt =>
            exact hlt ⟨k, by simpa using hk⟩ (by simpa using hjlt)
        · rw [List.find?_cons_of_neg _ (by simp [ha']), heq]
          rfl

/-- Claim C4: `categorize_disease` is total and first-match: for every
string it returns a non-empty label from the fixed taxonomy; the first
declared category with a keyword hit wins, and Other is returned when no
keyword matches; `categorize_disease("lung cancer clinic") == "Cancer"`. -/
theorem C4_categorize_disease_total_first_match (s : String) :
    categorize_disease s ≠ "" ∧
    categorize_disease s ∈ "Other" :: categories.map Prod.fst ∧
    ((∃ i : Fin categories.length,
        categoryHit (s.data.map lowerChar) (categories.get i) = true ∧
        (∀ j : Fin categories.length, (j : ℕ) < (i : ℕ) →
          categoryHit (s.data.map lowerChar) (categories.get j) = false) ∧
        categorize_disease s = (categories.get i).1) ∨
      ((∀ p ∈ categories, categoryHit (s.data.map lowerChar) p = false) ∧
        categorize_disease s = "Other")) ∧
    categorize_disease "lung cancer clinic" = "Cancer" := by
  have hlabels : ∀ x ∈ "Other" :: categories.map Prod.fst, x ≠ "" := by
    decide
  have hchar :
      ((∃ i : Fin categories.length,
          categoryHit (s.data.map lowerChar) (categories.get i) = true ∧
          (∀ j : Fin categories.length, (j : ℕ) < (i : ℕ) →
            categoryHit (s.data.map lowerChar) (categories.get j) = false) ∧
          categorize_disease s = (categories.get i).1) ∨
        ((∀ p ∈ categories, categoryHit (s.data.map lowerChar) p = false) ∧
          categorize_disease s = "Other")) := by
    rcases find?_first (categoryHit (s.data.map lowerChar)) categories with
      ⟨hall, hnone⟩ | ⟨i, hi, hlt, heq⟩
    · refine Or.inr ⟨hall, ?_⟩
      show (match categories.find? (categoryHit (s.data.map lowerChar)) with
        | some row => row.1
        | none => "Other") = "Other"
      rw [hnone]
    · refine Or.inl ⟨i, hi, hlt, ?_⟩
      show (match categories.find? (categoryHit (s.data.map lowerChar)) with
        | some row => row.1
        | none => "Other") = (categories.get i).1
      rw [heq]
  have hmem : categorize_disease s ∈ "Other" :: categories.map Prod.fst := by
    rcases hchar with ⟨i, -, -, heq⟩ | ⟨-, heq⟩
    · rw [heq]
      exact List.mem_cons_of_mem _
        (List.mem_map.mpr ⟨categories.get i, List.get_mem categories i.1 i.2, rfl⟩)
    · rw [heq]
      exact List.mem_cons_self _ _
  exact ⟨hlabels _ hmem, hmem, hchar, by decide⟩

/-- Lagrange's identity over the integers: twice the Cauchy-Schwarz defect
is a sum of squares. -/
theorem lagrange_identity {α : Type} (F : Finset α) (f g : α → ℤ) :
    2 * ((∑ i in F, f i ^ 2) * (∑ j in F, g j ^ 2) -
        (∑ i in F, f i * g i) ^ 2) =
      ∑ i in F, ∑ j in F, (f i * g j - f j * g i) ^ 2 := by
  have key : ∑ i in F, ∑ j in F, (f i * g j - f j * g i) ^ 2 =
      ∑ i in F, ∑ j in F,
        (f i ^ 2 * g j ^ 2 + f j ^ 2 * g i ^ 2 -
          2 * ((f i * g i) * (f j * g j))) := by
    refine Finset.sum_congr rfl fun i _ => Finset.sum_congr rfl fun j _ => ?_
    ring
  have h1 : (∑ i in F, f i ^ 2) * (∑ j in F, g j ^ 2) =
      ∑ i in F, ∑ j in F, f i ^ 2 * g j ^ 2 :=
    Finset.sum_mul_sum F F (fun i => f i ^ 2) (fun j => g j ^ 2)
  have h2 : (∑ i in F, f i * g i) ^ 2 =
      ∑ i in F, ∑ j in F, (f i * g i) * (f j * g j) := by
    rw [sq]
    exact Finset.sum_mul_sum F F (fun i => f i * g i) (fun j => f j * g j)
  have h3 : ∑ i in F, ∑ j in F, f j ^ 2 * g i ^ 2 =
      ∑ i in F, ∑ j in F, f i ^ 2 * g j ^ 2 := Finset.sum_comm
  have h4 : ∑ i in F, ∑ j in F, 2 * ((f i * g i) * (f j * g j)) =
      2 * ∑ i in F, ∑ j in F, (f i * g i) * (f j * g j) := by
    rw [Finset.mul_sum]
    exact Finset.sum_congr rfl fun i _ => (Finset.mul_sum _ _ _).symm
  rw [key]
  simp only [Finset.sum_sub_distrib, Finset.sum_add_distrib]
  rw [h3, ← h1, h4, ← h2]
  ring

/-- The union Finset of the two token lists: the index set of all the sums
of `calculate_similarity`. -/
def wordFinset (t1 t2 : String) : Finset (List Char) :=
  (tokensOf t1 ++ tokensOf t2).toFinset

/-- A sum over the deduplicated union list is the Finset sum. -/
theorem map_sum_all_words (t1 t2 : String) (g : List Char → ℕ) :
    ((all_words t1 t2).map g).sum = ∑ w in wordFinset t1 t2, g w := by
  unfold wordFinset
  have hfs : (tokensOf t1 ++ tokensOf t2).dedup.toFinset =
      (tokensOf t1 ++ tokensOf t2).toFinset :=
    List.toFinset.ext fun x => List.mem_dedup
  rw [← hfs]
  exact (List.sum_toFinset g (List.nodup_dedup _)).symm

/-- `dot_product` as an integer Finset sum. -/
theorem dot_product_eq_sum (t1 t2 : String) :
    (dot_product t1 t2 : ℤ) =
      ∑ w in wordFinset t1 t2,
        ((tokensOf t1).count w : ℤ) * ((tokensOf t2).count w : ℤ) := by
  unfold dot_product
  rw [map_sum_all_words]
  push_cast
  rfl

/-- `mag1` as an integer Finset sum. -/
theorem magSq1_eq_sum (t1 t2 : String) :
    (magSq1 t1 t2 : ℤ) =
      ∑ w in wordFinset t1 t2, ((tokensOf t1).count w : ℤ) ^ 2 := by
  unfold magSq1
  rw [map_sum_all_words]
  push_cast
  rfl

/-- `mag2` as an integer Finset sum. -/
theorem magSq2_eq_sum (t1 t2 : String) :
    (magSq2 t1 t2 : ℤ) =
      ∑ w in wordFinset t1 t2, ((tokensOf t2).count w : ℤ) ^ 2 := by
  unfold magSq2
  rw [map_sum_all_words]
  push_cast
  rfl

/-- Cauchy-Schwarz for the similarity sums. -/
theorem dot_sq_le_mag_mul_mag (t1 t2 : String) :
    (dot_product t1 t2 : ℤ) ^ 2 ≤ (magSq1 t1 t2 : ℤ) * (magSq2 t1 t2 : ℤ) := by
  rw [dot_product_eq_sum, magSq1_eq_sum, magSq2_eq_sum]
  exact Finset.sum_mul_sq_le_sq_mul_sq _ _ _

/-- A non-empty token list on side one forces a non-zero first magnitude. -/
theorem magSq1_ne_zero {t1 t2 : String} (h : tokensOf t1 ≠ []) :
    magSq1 t1 t2 ≠ 0 := by
  intro h0
  obtain ⟨w, hw⟩ := List.exists_mem_of_ne_nil (tokensOf t1) h
  have hmem : w ∈ all_words t1 t2 :=
    List.mem_dedup.mpr (List.mem_append_left _ hw)
  have hterm : (tokensOf t1).count w ^ 2 = 0 := by
    have := List.sum_eq_zero_iff.mp h0
    exact this _ (List.mem_map.mpr ⟨w, hmem, rfl⟩)
  have : (tokensOf t1).count w = 0 := by
    exact pow_eq_zero_iff (n := 2) (by norm_num) |>.mp hterm
  exact absurd (List.count_eq_zero.mp this) (by simp [hw])

/-- A non-empty token list on side two forces a non-zero second magnitude. -/
theorem magSq2_ne_zero {t1 t2 : String} (h : tokensOf t2 ≠ []) :
    magSq2 t1 t2 ≠ 0 := by
  intro h0
  obtain ⟨w, hw⟩ := List.exists_mem_of_ne_nil (tokensOf t2) h
  have hmem : w ∈ all_words t1 t2 :=
    List.mem_dedup.mpr (List.mem_append_right _ hw)
  have hterm : (tokensOf t2).count w ^ 2 = 0 := by
    have := List.sum_eq_zero_iff.mp h0
    exact this _ (List.mem_map.mpr ⟨w, hmem, rfl⟩)
  have : (tokensOf t2).count w = 0 := by
    exact pow_eq_zero_iff (n := 2) (by norm_num) |>.mp hterm
  exact absurd (List.count_eq_zero.mp this) (by simp [hw])

/-- Claim C7: similarity bounds — for every pair of texts the cosine score
lies in the closed interval from 0 to 1. -/
theorem C7_calculate_similarity_bounds (t1 t2 : String) :
    0 ≤ calculate_similarity t1 t2 ∧ calculate_similarity t1 t2 ≤ 1 := by
  unfold calculate_similarity
  split_ifs with hempty hmag
  · norm_num
  · norm_num
  · have hm1 : magSq1 t1 t2 ≠ 0 := fun h => hmag (Or.inl h)
    have hm2 : magSq2 t1 t2 ≠ 0 := fun h => hmag (Or.inr h)
    have hpos1 : (0:ℝ) < Real.sqrt (magSq1 t1 t2) :=
      Real.sqrt_pos.mpr (by exact_mod_cast Nat.pos_of_ne_zero hm1)
    have hpos2 : (0:ℝ) < Real.sqrt (magSq2 t1 t2) :=
      Real.sqrt_pos.mpr (by exact_mod_cast Nat.pos_of_ne_zero hm2)
    constructor
    · exact div_nonneg (Nat.cast_nonneg _) (le_of_lt (mul_pos hpos1 hpos2))
    · rw [div_le_one (mul_pos hpos1 hpos2)]
      have hsq : ((dot_product t1 t2 : ℝ)) ^ 2 ≤
          (magSq1 t1 t2 : ℝ) * (magSq2 t1 t2 : ℝ) := by
        exact_mod_cast dot_sq_le_mag_mul_mag t1 t2
      calc (dot_product t1 t2 : ℝ)
          = Real.sqrt ((dot_product t1 t2 : ℝ) ^ 2) :=
            (Real.sqrt_sq (Nat.cast_nonneg _)).symm
        _ ≤ Real.sqrt ((magSq1 t1 t2 : ℝ) * (magSq2 t1 t2 : ℝ)) :=
            Real.sqrt_le_sqrt hsq
        _ = Real.sqrt (magSq1 t1 t2) * Real.sqrt (magSq2 t1 t2) :=
            Real.sqrt_mul (Nat.cast_nonneg _) _

/-- Self-similarity: a text with at least one token scores exactly 1
against itself. -/
theorem calculate_similarity_self {a : String} (h : tokensOf a ≠ []) :
    calculate_similarity a a = 1 := by
  unfold calculate_similarity
  rw [if_neg (by simp [h])]
  have hm1 : magSq1 a a ≠ 0 := magSq1_ne_zero h
  have hm2 : magSq2 a a ≠ 0 := magSq2_ne_zero h
  rw [if_neg (by simp [hm1, hm2])]
  have hdm : dot_product a a = magSq1 a a := by
    unfold dot_product magSq1
    refine congrArg List.sum (List.map_congr_left fun w _ => ?_)
    rw [sq]
  have hmm : magSq2 a a = magSq1 a a := rfl
  rw [hdm, hmm, Real.mul_self_sqrt (Nat.cast_nonneg _)]
  exact div_self (Nat.cast_ne_zero.mpr hm1)

/-- An empty first text scores 0 against anything. -/
theorem calculate_similarity_empty_left (b : String) :
    calculate_similarity "" b = 0 := by
  unfold calculate_similarity
  rw [if_pos (show tokensOf "" = [] ∨ tokensOf b = [] from Or.inl (by decide))]

/-- A non-empty normalized text has at least one token. -/
theorem tokens_of_preprocess_ne_nil {x : String}
    (h : preprocess_text (some x) ≠ "") :
    tokensOf (preprocess_text (some x)) ≠ [] := by
  have hdata : (preprocess_text (some x)).data = preprocessList x.data := rfl
  show splitWs (preprocess_text (some x)).data ≠ []
  rw [hdata, splitWs_preprocessList]
  intro h0
  apply h
  show String.mk (preprocessList x.data) = ""
  unfold preprocessList
  rw [h0]
  rfl

/-- Claim C6: self-similarity and empty-side behaviour — a non-empty
normalized text scores 1.0 against itself, the empty text scores 0.0
against anything, and the division-by-zero guards return 0.0 instead of
raising (the function is total by construction). -/
theorem C6_self_similarity_and_empty_side (x b : String) :
    (preprocess_text (some x) ≠ "" →
      calculate_similarity (preprocess_text (some x))
        (preprocess_text (some x)) = 1) ∧
    calculate_similarity "" b = 0 :=
  ⟨fun h => calculate_similarity_self (tokens_of_preprocess_ne_nil h),
    calculate_similarity_empty_left b⟩

/-- Concrete instance of claim C6 at the normalized text of the string
fever cough. -/
theorem C6_witness :
    calculate_similarity (preprocess_text (some "fever cough"))
        (preprocess_text (some "fever cough")) = 1 ∧
      calculate_similarity "" "runny nose" = 0 :=
  ⟨(C6_self_similarity_and_empty_side "fever cough" "runny nose").1
      (by decide),
    (C6_self_similarity_and_empty_side "fever cough" "runny nose").2⟩

/-- Claim C1 counterexample: the two texts aaa aaa bbb bbb and aaa bbb have
different token multisets, yet their cosine similarity is exactly 1, because
their term-frequency vectors are proportional. -/
theorem C1_counterexample :
    calculate_similarity "aaa aaa bbb bbb" "aaa bbb" = 1 ∧
      (tokensOf "aaa aaa bbb bbb" : Multiset (List Char)) ≠
        (tokensOf "aaa bbb" : Multiset (List Char)) := by
  constructor
  · unfold calculate_similarity
    rw [if_neg (by decide), if_neg (by decide)]
    rw [show dot_product "aaa aaa bbb bbb" "aaa bbb" = 4 from by decide,
      show magSq1 "aaa aaa bbb bbb" "aaa bbb" = 8 from by decide,
      show magSq2 "aaa aaa bbb bbb" "aaa bbb" = 2 from by decide]
    rw [show ((8:ℕ):ℝ) = 8 from by norm_num,
      show ((2:ℕ):ℝ) = 2 from by norm_num,
      show ((4:ℕ):ℝ) = 4 from by norm_num]
    rw [← Real.sqrt_mul (by norm_num : (0:ℝ) ≤ 8)]
    rw [show (8:ℝ) * 2 = 4 ^ 2 by norm_num,
      Real.sqrt_sq (by norm_num : (0:ℝ) ≤ 4)]
    norm_num
  · decide

/-- A word outside the union Finset occurs in neither token list. -/
theorem count_zero_of_not_mem_wordFinset {t1 t2 : String} {w : List Char}
    (h : w ∉ wordFinset t1 t2) :
    (tokensOf t1).count w = 0 ∧ (tokensOf t2).count w = 0 := by
  rw [wordFinset, List.mem_toFinset, List.mem_append] at h
  push_neg at h
  exact ⟨List.count_eq_zero.mpr h.1, List.count_eq_zero.mpr h.2⟩

/-- Claim C1, amended: the cosine scorer returns exactly 1.0 precisely when
both token lists are non-empty and the two term-frequency vectors are
proportional (all cross products of counts agree); identical multisets are
a special case, but not necessary. -/
theorem C1_amended_similarity_one_iff_proportional (t1 t2 : String) :
    calculate_similarity t1 t2 = 1 ↔
      (tokensOf t1 ≠ [] ∧ tokensOf t2 ≠ [] ∧
        ∀ w s : List Char,
          (tokensOf t1).count w * (tokensOf t2).count s =
            (tokensOf t1).count s * (tokensOf t2).count w) := by
  by_cases hemp : tokensOf t1 = [] ∨ tokensOf t2 = []
  · unfold calculate_similarity
    rw [if_pos hemp]
    constructor
    · intro h
      exact absurd h (by norm_num)
    · rintro ⟨h1, h2, -⟩
      rcases hemp with h | h
      · exact absurd h h1
      · exact absurd h h2
  · push_neg at hemp
    obtain ⟨h1, h2⟩ := hemp
    have hm1 : magSq1 t1 t2 ≠ 0 := magSq1_ne_zero h1
    have hm2 : magSq2 t1 t2 ≠ 0 := magSq2_ne_zero h2
    have hpos1 : (0:ℝ) < Real.sqrt (magSq1 t1 t2) :=
      Real.sqrt_pos.mpr (by exact_mod_cast Nat.pos_of_ne_zero hm1)
    have hpos2 : (0:ℝ) < Real.sqrt (magSq2 t1 t2) :=
      Real.sqrt_pos.mpr (by exact_mod_cast Nat.pos_of_ne_zero hm2)
    unfold calculate_similarity
    rw [if_neg (by simp [h1, h2]), if_neg (by simp [hm1, hm2]),
      div_eq_one_iff_eq (ne_of_gt (mul_pos hpos1 hpos2))]
    constructor
    · intro heq
      refine ⟨h1, h2, ?_⟩
      have hsq : (dot_product t1 t2 : ℝ) ^ 2 =
          (magSq1 t1 t2 : ℝ) * (magSq2 t1 t2 : ℝ) := by
        rw [heq, mul_pow, Real.sq_sqrt (Nat.cast_nonneg _),
          Real.sq_sqrt (Nat.cast_nonneg _)]
      have hnat : dot_product t1 t2 ^ 2 = magSq1 t1 t2 * magSq2 t1 t2 := by
        exact_mod_cast hsq
      have hZ : ∑ i in wordFinset t1 t2, ∑ j in wordFinset t1 t2,
          (((tokensOf t1).count i : ℤ) * ((tokensOf t2).count j : ℤ) -
            ((tokensOf t1).count j : ℤ) * ((tokensOf t2).count i : ℤ)) ^ 2
          = 0 := by
        rw [← lagrange_identity, ← magSq1_eq_sum, ← magSq2_eq_sum,
          ← dot_product_eq_sum]
        have hc : (magSq1 t1 t2 : ℤ) * (magSq2 t1 t2 : ℤ) =
            (dot_product t1 t2 : ℤ) ^ 2 := by
          exact_mod_cast hnat.symm
        rw [hc]
        ring
      have hterm : ∀ i ∈ wordFinset t1 t2, ∀ j ∈ wordFinset t1 t2,
          ((tokensOf t1).count i : ℤ) * ((tokensOf t2).count j : ℤ) =
            ((tokensOf t1).count j : ℤ) * ((tokensOf t2).count i : ℤ) := by
        intro i hi j hj
        have h0 := (Finset.sum_eq_zero_iff_of_nonneg
          (fun i _ => Finset.sum_nonneg fun j _ => sq_nonneg _)).mp hZ i hi
        have h0' := (Finset.sum_eq_zero_iff_of_nonneg
          (fun j _ => sq_nonneg _)).mp h0 j hj
        have hzero := pow_eq_zero_iff (two_ne_zero) |>.mp h0'
        exact sub_eq_zero.mp hzero
      intro w s
      by_cases hw : w ∈ wordFinset t1 t2
      · by_cases hs : s ∈ wordFinset t1 t2
        · exact_mod_cast hterm w hw s hs
        · obtain ⟨hcs1, hcs2⟩ := count_zero_of_not_mem_wordFinset hs
          rw [hcs1, hcs2, Nat.mul_zero, Nat.zero_mul]
      · obtain ⟨hcw1, hcw2⟩ := count_zero_of_not_mem_wordFinset hw
        rw [hcw1, hcw2, Nat.mul_zero, Nat.zero_mul]
    · rintro ⟨-, -, hcross⟩
      have hZ : ∑ i in wordFinset t1 t2, ∑ j in wordFinset t1 t2,
          (((tokensOf t1).count i : ℤ) * ((tokensOf t2).count j : ℤ) -
            ((tokensOf t1).count j : ℤ) * ((tokensOf t2).count i : ℤ)) ^ 2
          = 0 :=
        Finset.sum_eq_zero fun i _ => Finset.sum_eq_zero fun j _ => by
          have hij : ((tokensOf t1).count i : ℤ) * ((tokensOf t2).count j : ℤ)
              = ((tokensOf t1).count j : ℤ) * ((tokensOf t2).count i : ℤ) := by
            exact_mod_cast hcross i j
          rw [hij]
          ring
      have hid := lagrange_identity (wordFinset t1 t2)
        (fun w => ((tokensOf t1).count w : ℤ))
        (fun w => ((tokensOf t2).count w : ℤ))
      rw [hZ, ← magSq1_eq_sum, ← magSq2_eq_sum, ← dot_product_eq_sum] at hid
      have hDM : (magSq1 t1 t2 : ℤ) * (magSq2 t1 t2 : ℤ) =
          (dot_product t1 t2 : ℤ) ^ 2 := by linarith
      have hR : (magSq1 t1 t2 : ℝ) * (magSq2 t1 t2 : ℝ) =
          (dot_product t1 t2 : ℝ) ^ 2 := by exact_mod_cast hDM
      rw [← Real.sqrt_mul (Nat.cast_nonneg _), hR,
        Real.sqrt_sq (Nat.cast_nonneg _)]

/-- Concrete instance of the amended claim C1: proportional but unequal
multisets score exactly 1. -/
theorem C1_amended_witness :
    calculate_similarity "aaa aaa bbb bbb" "aaa bbb" = 1 :=
  (C1_amended_similarity_one_iff_proportional "aaa aaa bbb bbb" "aaa bbb").mpr
    ⟨by decide, by decide, by
      have e1 : tokensOf "aaa aaa bbb bbb" =
          ["aaa".data, "aaa".data, "bbb".data, "bbb".data] := by decide
      have e2 : tokensOf "aaa bbb" = ["aaa".data, "bbb".data] := by decide
      intro w s
      rw [e1, e2]
      simp only [List.count_cons, List.count_nil]
      split_ifs <;> norm_num⟩

instance : IsTotal MatchResult simGE :=
  ⟨fun a b => le_total b.similarity a.similarity⟩

instance : IsTrans MatchResult simGE :=
  ⟨fun _ _ _ hab hbc => le_trans hbc hab⟩

/-- The matcher returns nothing when the query normalizes to the empty
string. -/
theorem find_eq_nil_of_cleaned_empty {q : String} (df : List Row) (n : ℕ)
    (h : preprocess_text (some q) = "") :
    find_similar_diseases q df n = [] := by
  unfold find_similar_diseases
  rw [if_pos h]

/-- The matcher is the truncated sorted result list when the query
normalizes to something non-empty. -/
theorem find_eq_take_of_cleaned_ne {q : String} (df : List Row) (n : ℕ)
    (h : preprocess_text (some q) ≠ "") :
    find_similar_diseases q df n = (sorted_results q df).take n := by
  unfold find_similar_diseases
  rw [if_neg h]

/-- A filter that selects only mutually tied elements commutes with
`orderedInsert`: the inserted element lands in front of the selected
part of the list. -/
theorem filter_orderedInsert (p : MatchResult → Bool) (a : MatchResult)
    (l : List MatchResult)
    (hp : p a = true → ∀ b, p b = true → simGE a b) :
    (l.orderedInsert simGE a).filter p =
      if p a then a :: l.filter p else l.filter p := by
  rw [List.orderedInsert_eq_take_drop, List.filter_append]
  have hsplit : l.filter p =
      (l.takeWhile fun b => decide ¬simGE a b).filter p ++
        (l.dropWhile fun b => decide ¬simGE a b).filter p := by
    rw [← List.filter_append, List.takeWhile_append_dropWhile]
  by_cases hpa : p a = true
  · have htake : (l.takeWhile fun b => decide ¬simGE a b).filter p = [] := by
      refine List.filter_eq_nil_iff.mpr fun b hb hpb => ?_
      have hnb :=
        @List.mem_takeWhile_imp MatchResult (fun x => decide ¬simGE a x) l b hb
      exact absurd (hp hpa b hpb) (of_decide_eq_true (by simpa using hnb))
    rw [if_pos hpa, htake, List.nil_append, List.filter_cons_of_pos hpa,
      hsplit, htake, List.nil_append]
  · rw [if_neg hpa, List.filter_cons_of_neg (by simpa using hpa), hsplit]

/-- Stability of the model sort: filtering a tie class out of the sorted
output gives the same sequence as filtering it out of the input. -/
theorem filter_insertionSort (p : MatchResult → Bool)
    (hp : ∀ a b, p a = true → p b = true → simGE a b) :
    ∀ l : List MatchResult,
      (l.insertionSort simGE).filter p = l.filter p := by
  intro l
  induction l with
  | nil => rfl
  | cons a l ih =>
    show ((l.insertionSort simGE).orderedInsert simGE a).filter p = _
    rw [filter_orderedInsert p a _ (fun hpa b hpb => hp a b hpa hpb), ih]
    by_cases hpa : p a = true
    · rw [if_pos hpa, List.filter_cons_of_pos hpa]
    · rw [if_neg hpa, List.filter_cons_of_neg (by simpa using hpa)]

/-- Claim C2: the matcher's output is sorted in descending order of
similarity, ties keep their original catalog order (the filtered equal-score
subsequence of the output is a prefix of that of the catalog-order scored
list), the output has at most `top_n` entries, and the Python default
`top_n` is 10, inside the 5-10 range. -/
theorem C2_find_similar_diseases_sorted_stable_truncated
    (q : String) (df : List Row) (n : ℕ) :
    List.Pairwise (fun a b => b.similarity ≤ a.similarity)
        (find_similar_diseases q df n) ∧
      (find_similar_diseases q df n).length ≤ n ∧
      (∀ v : ℝ, List.IsPrefix
        ((find_similar_diseases q df n).filter
          (fun r => decide (r.similarity = v)))
        ((scored_results q df).filter
          (fun r => decide (r.similarity = v)))) ∧
      find_similar_diseases_default q df = find_similar_diseases q df 10 ∧
      5 ≤ 10 ∧ 10 ≤ 10 := by
  by_cases hq : preprocess_text (some q) = ""
  · rw [find_eq_nil_of_cleaned_empty df n hq]
    refine ⟨List.Pairwise.nil, by simp, ?_, rfl, by norm_num, by norm_num⟩
    intro v
    exact ⟨_, rfl⟩
  · rw [find_eq_take_of_cleaned_ne df n hq]
    refine ⟨?_, List.length_take_le n _, ?_, rfl, by norm_num, by norm_num⟩
    · exact ((List.sorted_insertionSort simGE
        (scored_results q df)).sublist (List.take_sublist n _))
    · intro v
      have hstable : ((sorted_results q df).filter
          (fun r => decide (r.similarity = v))) =
          ((scored_results q df).filter
            (fun r => decide (r.similarity = v))) := by
        apply filter_insertionSort
        intro a b ha hb
        have ha' : a.similarity = v := of_decide_eq_true ha
        have hb' : b.similarity = v := of_decide_eq_true hb
        show b.similarity ≤ a.similarity
        rw [ha', hb']
      rw [← hstable]
      have hdrop : (sorted_results q df).take n ++
          (sorted_results q df).drop n = sorted_results q df :=
        List.take_append_drop n _
      refine ⟨((sorted_results q df).drop n).filter
        (fun r => decide (r.similarity = v)), ?_⟩
      rw [← List.filter_append, hdrop]

/-- Claim C3: every result the matcher returns has similarity strictly
above the fixed low-confidence floor 0.1. -/
theorem C3_results_above_floor (q : String) (df : List Row) (n : ℕ)
    (r : MatchResult) (h : r ∈ find_similar_diseases q df n) :
    (0.1 : ℝ) < r.similarity := by
  by_cases hq : preprocess_text (some q) = ""
  · rw [find_eq_nil_of_cleaned_empty df n hq] at h
    exact absurd h (List.not_mem_nil r)
  · rw [find_eq_take_of_cleaned_ne df n hq] at h
    have hsorted : r ∈ sorted_results q df := List.mem_of_mem_take h
    have hscored : r ∈ scored_results q df :=
      (List.perm_insertionSort simGE _).mem_iff.mp hsorted
    obtain ⟨row, -, hrow⟩ := List.mem_filterMap.mp hscored
    simp only [score_row] at hrow
    by_cases hc : (0.1 : ℝ) < calculate_similarity (preprocess_text (some q))
        (preprocess_text row.Symptoms)
    · rw [if_pos hc] at hrow
      cases Option.some_inj.mp hrow
      exact hc
    · rw [if_neg hc] at hrow
      cases hrow

/-- A one-row catalog for the concrete matcher instances: the row's symptom
text equals the query of the instance. -/
def fluRow : Row :=
  { Code := "1", Name := "Flu", Symptoms := some "fever cough",
    Treatments := "rest" }

/-- The match result the engine produces for `fluRow` against the query
fever cough. -/
noncomputable def fluResult : MatchResult :=
  { disease := "Flu", symptoms := some "fever cough", treatments := "rest",
    similarity := 1, category := "Infection" }

/-- Concrete instance of claim C3: a one-row catalog whose symptoms equal
the query yields that row with similarity 1, which is above the floor. -/
theorem C3_witness :
    fluResult ∈ find_similar_diseases "fever cough" [fluRow] 10 ∧
      (0.1 : ℝ) < fluResult.similarity := by
  have hpre : preprocess_text (some "fever cough") = "fever cough" := by
    decide
  have hsim : calculate_similarity "fever cough" "fever cough" = 1 :=
    calculate_similarity_self (by decide)
  have hsc : scored_results "fever cough" [fluRow] = [fluResult] := by
    unfold scored_results
    rw [List.filterMap_cons, List.filterMap_nil]
    simp only [score_row, fluRow]
    rw [hpre, hsim, if_pos (by norm_num : (0.1:ℝ) < 1)]
    rw [show categorize_disease "Flu" = "Infection" from by decide]
    rfl
  have hmem : fluResult ∈ find_similar_diseases "fever cough" [fluRow] 10 := by
    rw [find_eq_take_of_cleaned_ne _ _ (by decide)]
    unfold sorted_results
    rw [hsc]
    show fluResult ∈ (List.orderedInsert simGE fluResult []).take 10
    rw [List.orderedInsert_nil]
    exact List.mem_singleton.mpr rfl
  exact ⟨hmem, C3_results_above_floor _ _ _ _ hmem⟩

/-- Claim C9: matcher empty-input boundaries — a query that normalizes to
the empty string yields the empty result list, and an empty catalog yields
the empty result list for any query; neither case is an error. -/
theorem C9_empty_query_and_empty_catalog (q : String) (df : List Row)
    (n : ℕ) :
    (preprocess_text (some q) = "" → find_similar_diseases q df n = []) ∧
      find_similar_diseases q [] n = [] := by
  refine ⟨fun h => find_eq_nil_of_cleaned_empty df n h, ?_⟩
  by_cases h : preprocess_text (some q) = ""
  · exact find_eq_nil_of_cleaned_empty [] n h
  · rw [find_eq_take_of_cleaned_ne [] n h]
    show (List.insertionSort simGE (List.filterMap _ [])).take n = []
    rw [List.filterMap_nil]
    simp [List.insertionSort]

/-- Concrete instances of claim C9: a whitespace-only query and the plain
empty query on a non-empty catalog, and a non-empty query on the empty
catalog, all return the empty list. -/
theorem C9_witness :
    find_similar_diseases "   " [fluRow] 10 = [] ∧
      find_similar_diseases "" [fluRow] 10 = [] ∧
      find_similar_diseases "fever" [] 10 = [] :=
  ⟨(C9_empty_query_and_empty_catalog "   " [fluRow] 10).1 (by decide),
    (C9_empty_query_and_empty_catalog "" [fluRow] 10).1 (by decide),
    (C9_empty_query_and_empty_catalog "fever" [] 10).2⟩

/-- `filterMap` preserves `Forall₂` when the two functions respond alike to
related inputs. -/
theorem forall2_filterMap {α β : Type} (f g : α → Option β)
    (R : β → β → Prop) (S : α → α → Prop)
    (hfg : ∀ a b, S a b → (f a = none ∧ g b = none) ∨
      ∃ x y, f a = some x ∧ g b = some y ∧ R x y) :
    ∀ {l1 l2 : List α}, List.Forall₂ S l1 l2 →
      List.Forall₂ R (l1.filterMap f) (l2.filterMap g) := by
  intro l1 l2 h
  induction h with
  | nil => exact List.Forall₂.nil
  | @cons a b l1' l2' hab htl ih =>
    rw [List.filterMap_cons, List.filterMap_cons]
    rcases hfg _ _ hab with ⟨hfa, hgb⟩ | ⟨x, y, hfa, hgb, hxy⟩
    · rw [hfa, hgb]
      exact ih
    · rw [hfa, hgb]
      exact List.Forall₂.cons hxy ih

/-- `orderedInsert` with the similarity comparator preserves any relation
that forces equal similarities. -/
theorem forall2_orderedInsert (R : MatchResult → MatchResult → Prop)
    (hsim : ∀ x y, R x y → x.similarity = y.similarity)
    {l1 l2 : List MatchResult} (a b : MatchResult) (hab : R a b)
    (h : List.Forall₂ R l1 l2) :
    List.Forall₂ R (l1.orderedInsert simGE a) (l2.orderedInsert simGE b) := by
  induction h with
  | nil => exact List.Forall₂.cons hab List.Forall₂.nil
  | @cons x y l1' l2' hxy htl ih =>
    have hiff : simGE a x ↔ simGE b y := by
      unfold simGE
      rw [hsim a b hab, hsim x y hxy]
    by_cases hc : simGE a x
    · rw [List.orderedInsert_of_le simGE _ hc,
        List.orderedInsert_of_le simGE _ (hiff.mp hc)]
      exact List.Forall₂.cons hab (List.Forall₂.cons hxy htl)
    · have hc' : ¬simGE b y := fun h' => hc (hiff.mpr h')
      show List.Forall₂ R (if simGE a x then a :: x :: l1'
          else x :: l1'.orderedInsert simGE a)
        (if simGE b y then b :: y :: l2'
          else y :: l2'.orderedInsert simGE b)
      rw [if_neg hc, if_neg hc']
      exact List.Forall₂.cons hxy ih

/-- `insertionSort` with the similarity comparator preserves any relation
that forces equal similarities. -/
theorem forall2_insertionSort (R : MatchResult → MatchResult → Prop)
    (hsim : ∀ x y, R x y → x.similarity = y.similarity)
    {l1 l2 : List MatchResult} (h : List.Forall₂ R l1 l2) :
    List.Forall₂ R (l1.insertionSort simGE) (l2.insertionSort simGE) := by
  induction h with
  | nil => exact List.Forall₂.nil
  | @cons a b l1' l2' hab htl ih =>
    show List.Forall₂ R ((l1'.insertionSort simGE).orderedInsert simGE a)
      ((l2'.insertionSort simGE).orderedInsert simGE b)
    exact forall2_orderedInsert R hsim a b hab ih

/-- The whole matcher pipeline preserves `Forall₂` along a row relation the
scoring step respects. -/
theorem find_forall2 (q : String) (n : ℕ)
    (R : MatchResult → MatchResult → Prop) (S : Row → Row → Prop)
    (hsim : ∀ x y, R x y → x.similarity = y.similarity)
    (hrow : ∀ r1 r2, S r1 r2 →
      (score_row (preprocess_text (some q)) r1 = none ∧
        score_row (preprocess_text (some q)) r2 = none) ∨
      ∃ x y, score_row (preprocess_text (some q)) r1 = some x ∧
        score_row (preprocess_text (some q)) r2 = some y ∧ R x y)
    {df1 df2 : List Row} (h : List.Forall₂ S df1 df2) :
    List.Forall₂ R (find_similar_diseases q df1 n)
      (find_similar_diseases q df2 n) := by
  by_cases hq : preprocess_text (some q) = ""
  · rw [find_eq_nil_of_cleaned_empty df1 n hq,
      find_eq_nil_of_cleaned_empty df2 n hq]
    exact List.Forall₂.nil
  · rw [find_eq_take_of_cleaned_ne df1 n hq,
      find_eq_take_of_cleaned_ne df2 n hq]
    exact List.forall₂_take n
      (forall2_insertionSort R hsim (forall2_filterMap _ _ R S hrow h))

/-- Claim C10: noninterference of non-symptom fields. Catalogs that agree
entry-wise on the Symptoms column produce results that agree entry-wise on
similarity and symptom text (Code, Name, Treatments never influence which
entries match, their scores or their ranking); when the Name column also
agrees, the results agree on everything except the copied treatment text
(Name influences only the name and category shown). -/
theorem C10_noninterference (q : String) (n : ℕ) (df1 df2 : List Row) :
    (List.Forall₂ (fun r1 r2 => r1.Symptoms = r2.Symptoms) df1 df2 →
      List.Forall₂ (fun m1 m2 =>
          m1.similarity = m2.similarity ∧ m1.symptoms = m2.symptoms)
        (find_similar_diseases q df1 n) (find_similar_diseases q df2 n)) ∧
    (List.Forall₂ (fun r1 r2 =>
        r1.Symptoms = r2.Symptoms ∧ r1.Name = r2.Name) df1 df2 →
      List.Forall₂ (fun m1 m2 => m1.disease = m2.disease ∧
          m1.symptoms = m2.symptoms ∧ m1.similarity = m2.similarity ∧
          m1.category = m2.category)
        (find_similar_diseases q df1 n) (find_similar_diseases q df2 n)) := by
  constructor
  · intro hS
    refine find_forall2 q n _ _ (fun x y h => h.1) ?_ hS
    intro r1 r2 h12
    simp only [score_row]
    rw [h12]
    by_cases hc : (0.1 : ℝ) < calculate_similarity
        (preprocess_text (some q)) (preprocess_text r2.Symptoms)
    · exact Or.inr ⟨_, _, if_pos hc, if_pos hc, rfl, rfl⟩
    · exact Or.inl ⟨if_neg hc, if_neg hc⟩
  · intro hS
    refine find_forall2 q n _ _ (fun x y h => h.2.2.1) ?_ hS
    intro r1 r2 h12
    simp only [score_row]
    rw [h12.1, h12.2]
    by_cases hc : (0.1 : ℝ) < calculate_similarity
        (preprocess_text (some q)) (preprocess_text r2.Symptoms)
    · exact Or.inr ⟨_, _, if_pos hc, if_pos hc, rfl, rfl, rfl, rfl⟩
    · exact Or.inl ⟨if_neg hc, if_neg hc⟩

/-- A one-row catalog entry used by the noninterference instance. -/
def fluRow2 : Row :=
  { Code := "99", Name := "Grippe", Symptoms := some "fever",
    Treatments := "sleep" }

/-- A row with the same Symptoms as `fluRow2` but another Code, Name and
Treatments. -/
def fluRow3 : Row :=
  { Code := "2", Name := "Influenza", Symptoms := some "fever",
    Treatments := "hydrate" }

/-- A row with the same Symptoms and Name as `fluRow3` but another Code
and other Treatments. -/
def fluRow4 : Row :=
  { Code := "7", Name := "Influenza", Symptoms := some "fever",
    Treatments := "rest" }

/-- Concrete instance of claim C10: one-row catalogs agreeing on Symptoms
(and, for the second part, on Name) give entry-wise agreeing results. -/
theorem C10_witness :
    List.Forall₂ (fun m1 m2 =>
        m1.similarity = m2.similarity ∧ m1.symptoms = m2.symptoms)
      (find_similar_diseases "fever" [fluRow2] 10)
      (find_similar_diseases "fever" [fluRow3] 10) ∧
    List.Forall₂ (fun m1 m2 => m1.disease = m2.disease ∧
        m1.symptoms = m2.symptoms ∧ m1.similarity = m2.similarity ∧
        m1.category = m2.category)
      (find_similar_diseases "fever" [fluRow3] 10)
      (find_similar_diseases "fever" [fluRow4] 10) :=
  ⟨(C10_noninterference "fever" 10 [fluRow2] [fluRow3]).1
      (List.Forall₂.cons rfl List.Forall₂.nil),
    (C10_noninterference "fever" 10 [fluRow3] [fluRow4]).2
      (List.Forall₂.cons ⟨rfl, rfl⟩ List.Forall₂.nil)⟩
